import Mathlib

/-!
Shallow embedding of the code-extraction pipeline of `src/app.py`
(function `retrieve_codes`, lines 76-242) of the medical-rag-api
repository, together with proofs of the specification claims.

Modelling conventions:
* Python strings are `List Char` (`Str`); whitespace and case folding use
  Lean's ASCII `Char.isWhitespace` / `Char.toLower`, matching the ASCII
  fragment the pipeline manipulates.
* Pinecone match scores (Python floats, only compared and carried through)
  are modelled as `Int`.
* A Pinecone match is its score plus its metadata mapping (an association
  list from key to string value); the passage text is the metadata value
  under the key `text`, defaulting to the empty string, exactly as
  `metadata.get('text', '')` does.
* Python dicts used as insertion-ordered accumulators (`icd10_codes` etc.)
  are lists of entries in insertion order, with an explicit
  membership test before insertion (`code not in icd10_codes`).
* The regular expressions `\b[A-TV-Z]\d{2}(?:\.\d{1,4})?\b` and
  `\b\d{5}\b` and Python's `re.findall` scan (try each position left to
  right, greedy with backtracking on the optional fraction, continue after
  the end of a match) are implemented directly; `\b` is a word boundary
  with word characters `[A-Za-z0-9_]`, `\d` is modelled as an ASCII digit.
* The terminology table is an association list from code to its
  `positive_terms` sequence (a missing `positive_terms` field is the
  empty sequence, as `terminology[code].get('positive_terms', [])`).
-/

namespace MedicalRag

/-- Python strings, modelled as lists of characters. -/
abbrev Str := List Char

/-- Convert a Lean string literal to the `Str` model. -/
def s2l (s : String) : Str := s.toList

/-- Provenance of an extracted code: the `'metadata'` / `'text_extraction'`
values written into the `source` field in `src/app.py`. -/
inductive Source where
  | metadata
  | text_extraction
deriving DecidableEq, Repr

/-- One output entry: the dict
`{'code': ..., 'description': ..., 'score': ..., 'source': ...}` built in
`retrieve_codes`. -/
structure Entry where
  code : Str
  description : Str
  score : Int
  source : Source
deriving DecidableEq, Repr

/-- One Pinecone match: its score and its metadata mapping. -/
structure PMatch where
  score : Int
  meta : List (Str × Str)
deriving DecidableEq, Repr

/-- The three insertion-ordered accumulators `icd10_codes`, `cpt_codes`,
`hcpcs_codes` of `retrieve_codes`. -/
structure CodeState where
  icd10 : List Entry
  cpt : List Entry
  hcpcs : List Entry
deriving DecidableEq, Repr

/-- The code lists of the response body: `icd10`, `cpt`, `hcpcs`. -/
structure Output where
  icd10 : List Entry
  cpt : List Entry
  hcpcs : List Entry
deriving DecidableEq, Repr

/-- Terminology table: code to `positive_terms`. -/
abbrev Terminology := List (Str × List Str)

/-- Python `str.lower()` (ASCII fragment). -/
def lowerStr (s : Str) : Str := s.map Char.toLower

/-- Python `str.strip()`: drop leading and trailing whitespace. -/
def trimStr (s : Str) : Str :=
  ((s.dropWhile Char.isWhitespace).reverse.dropWhile Char.isWhitespace).reverse

/-- The exclusion test of lines 127-128 of `src/app.py`:
`exclusion_terms and any(term.lower() in chunk_text.lower() for term in exclusion_terms)`.
Python's `in` on strings is the substring test, modelled by `List.IsInfix`. -/
def excludedMatch (excl : List Str) (text : Str) : Bool :=
  !excl.isEmpty && excl.any (fun t => decide (lowerStr t <:+: lowerStr text))

/-- The metadata key chain `metadata.get(k1) or metadata.get(k2) or ... or ''`:
value of the first key present with a non-empty value, else the empty string. -/
def metaStr (meta : List (Str × Str)) : List Str → Str
  | [] => []
  | k :: ks =>
    match meta.lookup k with
    | some v => if v.isEmpty then metaStr meta ks else v
    | none => metaStr meta ks

/-- ICD-10 metadata keys, in probe order (lines 131-137). -/
def icd10Keys : List Str := [s2l "icd10_codes", s2l "icd10", s2l "icd_10", s2l "icd-10"]

/-- CPT metadata keys, in probe order (lines 138-143). -/
def cptKeys : List Str := [s2l "cpt_codes", s2l "cpt", s2l "procedure_codes"]

/-- HCPCS metadata keys, in probe order (lines 144-148). -/
def hcpcsKeys : List Str := [s2l "hcpcs_codes", s2l "hcpcs"]

/-- The metadata key holding the passage text. -/
def textKey : Str := s2l "text"

/-- `chunk_text = metadata.get('text', '')` (line 123). -/
def chunkText (m : PMatch) : Str := (m.meta.lookup textKey).getD []

/-- Regex word character (`\w`): letter, digit or underscore. -/
def isWordChar (c : Char) : Bool := c.isAlphanum || c = '_'

/-- Word boundary `\b` after a match ending in a word character: holds at
end of input or before a non-word character. -/
def boundaryAfter : Str → Bool
  | [] => true
  | c :: _ => !isWordChar c

/-- The character class `[A-TV-Z]` of the ICD-10 pattern. -/
def icdLead (c : Char) : Bool := ('A' ≤ c && c ≤ 'T') || ('V' ≤ c && c ≤ 'Z')

/-- The optional fraction `(?:\.\d{1,4})?` of the ICD-10 pattern followed by
`\b`, tried greedily: `k` digits first, backtracking down to 1.
Returns the consumed fraction (including the dot) if some length works. -/
def icdFrac : Nat → Str → Option Str
  | 0, _ => none
  | _ + 1, [] => none
  | k + 1, c :: rest =>
    if c = '.' then
      let ds := rest.take (k + 1)
      if ds.length = k + 1 && ds.all Char.isDigit && boundaryAfter (rest.drop (k + 1))
      then some (c :: ds)
      else icdFrac k (c :: rest)
    else none

/-- Attempt the ICD-10 pattern `[A-TV-Z]\d{2}(?:\.\d{1,4})?\b` at the head
of the input (the leading `\b` is checked by the scanner). Returns the
matched text. -/
def icdMatchAt : Str → Option Str
  | a :: b :: c :: rest =>
    if icdLead a && b.isDigit && c.isDigit then
      match icdFrac 4 rest with
      | some frac => some (a :: b :: c :: frac)
      | none => if boundaryAfter rest then some [a, b, c] else none
    else none
  | _ => none

/-- Attempt the CPT pattern `\d{5}\b` at the head of the input. -/
def cptMatchAt (cs : Str) : Option Str :=
  let ds := cs.take 5
  if ds.length = 5 && ds.all Char.isDigit && boundaryAfter (cs.drop 5)
  then some ds else none

/-- The `re.findall` scan: try a match at each position left to right
(a position qualifies for `\b` only when the previous character is not a
word character, since both patterns start with a word character), and
resume after the end of each match. `fuel` bounds the recursion; each
step consumes at least one character, so `fuel = length` is exact. -/
def scanWith (matchAt : Str → Option Str) : Nat → Str → Bool → List Str
  | 0, _, _ => []
  | _ + 1, [], _ => []
  | fuel + 1, c :: rest, prevWord =>
    if prevWord then scanWith matchAt fuel rest (isWordChar c)
    else
      match matchAt (c :: rest) with
      | some m => m :: scanWith matchAt fuel (rest.drop (m.length - 1)) true
      | none => scanWith matchAt fuel rest (isWordChar c)

/-- `re.findall(r'\b[A-TV-Z]\d{2}(?:\.\d{1,4})?\b', chunk_text)` (line 155). -/
def findAllICD (text : Str) : List Str := scanWith icdMatchAt text.length text false

/-- `re.findall(r'\b\d{5}\b', chunk_text)` (line 159). -/
def findAllCPT (text : Str) : List Str := scanWith cptMatchAt text.length text false

/-- `','.join(matches)`. -/
def joinComma (ts : List Str) : Str := List.intercalate [','] ts

/-- Python `str.split(',')`: splits on every comma, `''` gives `['']`. -/
def splitComma : Str → List Str
  | [] => [[]]
  | c :: rest =>
    if c = ',' then [] :: splitComma rest
    else
      match splitComma rest with
      | [] => [[c]]
      | t :: ts => (c :: t) :: ts

/-- `str(x).replace(';', ',').split(',')` (lines 165, 183, 200). -/
def splitTokens (s : Str) : List Str :=
  splitComma (s.map (fun c => if c = ';' then ',' else c))

/-- ICD-10 shape test `re.match(r'^[A-TV-Z]\d{2}', code)`: a prefix match
on the first three characters. -/
def icdShapeOk : Str → Bool
  | a :: b :: c :: _ => icdLead a && b.isDigit && c.isDigit
  | _ => false

/-- ICD-10 validation (line 167-168): `len(code) >= 3` and the prefix shape. -/
def validICD10 (code : Str) : Bool := decide (3 ≤ code.length) && icdShapeOk code

/-- CPT validation (line 185): `len(code) == 5 and code.isdigit()`. -/
def validCPT (code : Str) : Bool := decide (code.length = 5) && !code.isEmpty && code.all Char.isDigit

/-- HCPCS has no shape validation beyond non-emptiness (line 202). -/
def validHCPCS (_ : Str) : Bool := true

/-- Membership test `code in icd10_codes` on the accumulator. -/
def hasCode (acc : List Entry) (c : Str) : Bool := acc.any (fun e => decide (e.code = c))

/-- Description enrichment (lines 169-173, 186-190, 203-207): start from
the generic `'<CATEGORY> code <code>'`; if the code is in the terminology
table and its `positive_terms` is non-empty, use its first element. -/
def descFor (term : Terminology) (generic : Str) (code : Str) : Str :=
  match term.lookup code with
  | some (t :: _) => t
  | some [] => generic ++ code
  | none => generic ++ code

/-- The generic description stem for ICD-10. -/
def icdGeneric : Str := s2l "ICD-10 code "

/-- The generic description stem for CPT. -/
def cptGeneric : Str := s2l "CPT code "

/-- The generic description stem for HCPCS. -/
def hcpcsGeneric : Str := s2l "HCPCS code "

/-- Process a single raw token: strip it, and insert a new entry at the end
of the accumulator when it is non-empty, not yet present, and valid for
the category (the per-token body of the three loops at lines 165-213). -/
def insertToken (valid : Str → Bool) (term : Terminology) (generic : Str)
    (score : Int) (src : Source) (acc : List Entry) (tok : Str) : List Entry :=
  let code := trimStr tok
  if !code.isEmpty && !hasCode acc code && valid code then
    acc ++ [⟨code, descFor term generic code, score, src⟩]
  else acc

/-- Process all raw tokens of one category string for one passage. -/
def processTokens (valid : Str → Bool) (term : Terminology) (generic : Str)
    (score : Int) (src : Source) (tokens : List Str) (acc : List Entry) : List Entry :=
  tokens.foldl (insertToken valid term generic score src) acc

/-- `'metadata' if from_meta else 'text_extraction'`. -/
def srcOf (fromMeta : Bool) : Source :=
  if fromMeta then Source.metadata else Source.text_extraction

/-- The ICD-10 category string after both strategies (lines 131-137 and
154-157): the metadata chain, or, when that is empty and the text is
non-empty and the pattern finds matches, the comma-join of the matches. -/
def icdStrOf (meta : List (Str × Str)) (text : Str) : Str :=
  let m := metaStr meta icd10Keys
  if m.isEmpty && !text.isEmpty then
    let ms := findAllICD text
    if ms.isEmpty then m else joinComma ms
  else m

/-- The CPT category string after both strategies (lines 138-143 and
158-161). -/
def cptStrOf (meta : List (Str × Str)) (text : Str) : Str :=
  let m := metaStr meta cptKeys
  if m.isEmpty && !text.isEmpty then
    let ms := findAllCPT text
    if ms.isEmpty then m else joinComma ms
  else m

/-- The HCPCS category string (lines 144-148): metadata only, no fallback. -/
def hcpcsStrOf (meta : List (Str × Str)) : Str := metaStr meta hcpcsKeys

/-- Process one Pinecone match: exclusion check, the two extraction
strategies, and the three per-category token loops (lines 121-213). -/
def stepMatch (term : Terminology) (excl : List Str) (st : CodeState) (m : PMatch) : CodeState :=
  let text := chunkText m
  if excludedMatch excl text then st
  else
    let icdS := icdStrOf m.meta text
    let cptS := cptStrOf m.meta text
    let hcpcsS := hcpcsStrOf m.meta
    let icd' := if icdS.isEmpty then st.icd10 else
      processTokens validICD10 term icdGeneric m.score
        (srcOf (!(metaStr m.meta icd10Keys).isEmpty)) (splitTokens icdS) st.icd10
    let cpt' := if cptS.isEmpty then st.cpt else
      processTokens validCPT term cptGeneric m.score
        (srcOf (!(metaStr m.meta cptKeys).isEmpty)) (splitTokens cptS) st.cpt
    let hcpcs' := if hcpcsS.isEmpty then st.hcpcs else
      processTokens validHCPCS term hcpcsGeneric m.score
        (srcOf (!(metaStr m.meta hcpcsKeys).isEmpty)) (splitTokens hcpcsS) st.hcpcs
    ⟨icd', cpt', hcpcs'⟩

/-- Run the extraction loop over all matches, starting from empty
accumulators. -/
def extractState (term : Terminology) (excl : List Str) (ms : List PMatch) : CodeState :=
  ms.foldl (stepMatch term excl) ⟨[], [], []⟩

/-- Stable insertion into a score-descending list: walk past entries with
a strictly greater score, insert before the first entry whose score is
less than or equal (so earlier-inserted entries with an equal score stay
in front). -/
def insertDesc (a : Entry) : List Entry → List Entry
  | [] => [a]
  | b :: t => if a.score < b.score then b :: insertDesc a t else a :: b :: t

/-- Stable sort by score descending, modelling Python's stable
`sorted(..., key=lambda x: x['score'], reverse=True)` (lines 216-218). -/
def sortScoreDesc : List Entry → List Entry
  | [] => []
  | a :: t => insertDesc a (sortScoreDesc t)

/-- The whole pipeline (lines 121-223): extraction loop, then per-category
stable sort by score descending and truncation to 20 / 15 / 10. -/
def retrieve_codes (term : Terminology) (excl : List Str) (ms : List PMatch) : Output :=
  let st := extractState term excl ms
  ⟨(sortScoreDesc st.icd10).take 20,
   (sortScoreDesc st.cpt).take 15,
   (sortScoreDesc st.hcpcs).take 10⟩

/-- First entry of the accumulator carrying the given code (the dict
lookup `acc[code]`; by the dedup invariant there is at most one). -/
def lookupCode (acc : List Entry) (c : Str) : Option Entry :=
  acc.find? (fun e => decide (e.code = c))

/-- Splitting on both separators `,` and `;` at once: the specification's
view of `replace(';', ',').split(',')`. -/
def splitSpec : Str → List Str
  | [] => [[]]
  | c :: rest =>
    if c = ',' || c = ';' then [] :: splitSpec rest
    else
      match splitSpec rest with
      | [] => [[c]]
      | t :: ts => (c :: t) :: ts

/-- Shape of a token produced by the ICD-10 text-extraction pattern:
a letter in `A`-`T` or `V`-`Z`, two digits, and optionally a decimal
point followed by one to four digits. -/
def IcdTok (m : Str) : Prop :=
  ∃ a b c rest, m = a :: b :: c :: rest ∧ icdLead a = true ∧
    b.isDigit = true ∧ c.isDigit = true ∧
    (rest = [] ∨ ∃ ds, rest = '.' :: ds ∧ 1 ≤ ds.length ∧ ds.length ≤ 4 ∧
      ds.all Char.isDigit = true)

/-- Everything the per-token insertion guarantees about a freshly inserted
entry, for a category with validator `valid`, generic description stem
`generic`, passage score `score` and provenance `src`. -/
def entryProp (valid : Str → Bool) (term : Terminology) (generic : Str)
    (score : Int) (src : Source) (e : Entry) : Prop :=
  e.source = src ∧ e.score = score ∧
  e.description = descFor term generic e.code ∧
  valid e.code = true ∧ e.code ≠ [] ∧ trimStr e.code = e.code

/-- The ranking contract of one output category: the output is the stable
score-descending sort of the insertion-ordered accumulator truncated to
`n`; the sort is a permutation, the output is score-descending, entries
of equal score keep their accumulator order, and at most `n` entries
survive. -/
def rankedProp (input : List Entry) (n : Nat) (output : List Entry) : Prop :=
  output = (sortScoreDesc input).take n ∧
  (sortScoreDesc input).Perm input ∧
  output.Pairwise (fun a b => b.score ≤ a.score) ∧
  (∀ s : Int, (sortScoreDesc input).filter (fun e => decide (e.score = s)) =
    input.filter (fun e => decide (e.score = s))) ∧
  output.length ≤ n ∧ (input = [] → output = [])

/-! ### Basic string lemmas -/

theorem dropWhile_dropWhile (p : Char → Bool) (l : Str) :
    (l.dropWhile p).dropWhile p = l.dropWhile p := by
  induction l with
  | nil => rfl
  | cons a t ih =>
    by_cases h : p a = true
    · simp [List.dropWhile_cons, h, ih]
    · simp [List.dropWhile_cons, h]

theorem dropWhile_append_singleton (p : Char → Bool) (a : Char) (l : Str) :
    List.dropWhile p (l ++ [a]) = [] ∨
      ∃ z, List.dropWhile p (l ++ [a]) = z ++ [a] := by
  induction l with
  | nil =>
    by_cases h : p a = true
    · left; simp [List.dropWhile_cons, h]
    · right; exact ⟨[], by simp [List.dropWhile_cons, h]⟩
  | cons c t ih =>
    by_cases h : p c = true
    · simpa [List.dropWhile_cons, h] using ih
    · right; exact ⟨c :: t, by simp [List.dropWhile_cons, h]⟩

theorem dropWhile_cons_self_head (p : Char → Bool) (a : Char) (t : Str)
    (h : List.dropWhile p (a :: t) = a :: t) : p a = false := by
  by_cases hp : p a = true
  · exfalso
    rw [List.dropWhile_cons, if_pos hp] at h
    have hsub : (List.dropWhile p t).Sublist t := (List.dropWhile_suffix p).sublist
    have := hsub.length_le
    rw [h] at this
    simp at this
  · simpa using hp

theorem trimStr_idem (s : Str) : trimStr (trimStr s) = trimStr s := by
  unfold trimStr
  set p := Char.isWhitespace with hp
  set A := s.dropWhile p with hA
  -- the right-trim step: `T.reverse` is a `dropWhile`, so it is left-stable
  have hrev : ((A.reverse.dropWhile p).reverse).reverse.dropWhile p =
      ((A.reverse.dropWhile p).reverse).reverse := by
    rw [List.reverse_reverse]
    exact dropWhile_dropWhile p A.reverse
  -- the left-trim step: the head of `T` is the head of `A`, not whitespace
  have hleft : ((A.reverse.dropWhile p).reverse).dropWhile p =
      (A.reverse.dropWhile p).reverse := by
    cases hAc : A with
    | nil => simp [hAc]
    | cons a t =>
      have ha : p a = false := by
        apply dropWhile_cons_self_head p a t
        rw [← hAc, hA]
        exact dropWhile_dropWhile p s
      rw [List.reverse_cons]
      rcases dropWhile_append_singleton p a t.reverse with h | ⟨z, h⟩
      · simp [h]
      · rw [h]
        simp [List.dropWhile_cons, ha]
  rw [hleft, List.reverse_reverse, dropWhile_dropWhile]

theorem lowerStr_eq_nil_iff (s : Str) : lowerStr s = [] ↔ s = [] := by
  simp [lowerStr]

/-! ### Token-insertion lemmas: the per-token body of the three loops -/

theorem hasCode_eq_false_iff (acc : List Entry) (c : Str) :
    hasCode acc c = false ↔ ∀ a ∈ acc, a.code ≠ c := by
  simp [hasCode, List.any_eq_true]

theorem insertToken_cases (valid : Str → Bool) (term : Terminology) (generic : Str)
    (score : Int) (src : Source) (acc : List Entry) (tok : Str) :
    insertToken valid term generic score src acc tok = acc ∨
    ∃ e, insertToken valid term generic score src acc tok = acc ++ [e] ∧
      entryProp valid term generic score src e ∧ hasCode acc e.code = false := by
  unfold insertToken
  by_cases h : (!(trimStr tok).isEmpty && !hasCode acc (trimStr tok) && valid (trimStr tok)) = true
  · right
    refine ⟨⟨trimStr tok, descFor term generic (trimStr tok), score, src⟩, by simp [h], ?_, ?_⟩
    · simp only [Bool.and_eq_true, Bool.not_eq_true'] at h
      refine ⟨rfl, rfl, rfl, h.2, ?_, trimStr_idem tok⟩
      simpa [List.isEmpty_iff] using h.1.1
    · simp only [Bool.and_eq_true, Bool.not_eq_true'] at h
      exact h.1.2
  · left; simp [h]

theorem processTokens_suffix (valid : Str → Bool) (term : Terminology) (generic : Str)
    (score : Int) (src : Source) (toks : List Str) :
    ∀ acc, ∃ tl, processTokens valid term generic score src toks acc = acc ++ tl ∧
      ∀ e ∈ tl, entryProp valid term generic score src e := by
  induction toks with
  | nil => exact fun acc => ⟨[], by simp [processTokens], by simp⟩
  | cons tok toks ih =>
    intro acc
    have hstep := insertToken_cases valid term generic score src acc tok
    rcases hstep with h | ⟨e, h, he, _⟩
    · obtain ⟨tl, htl, hall⟩ := ih acc
      refine ⟨tl, ?_, hall⟩
      simpa [processTokens, List.foldl_cons, h] using htl
    · obtain ⟨tl, htl, hall⟩ := ih (acc ++ [e])
      refine ⟨e :: tl, ?_, ?_⟩
      · simp only [processTokens, List.foldl_cons, h]
        simpa [List.append_assoc] using htl
      · intro x hx
        rcases List.mem_cons.mp hx with rfl | hx
        · exact he
        · exact hall x hx

theorem processTokens_mem (valid : Str → Bool) (term : Terminology) (generic : Str)
    (score : Int) (src : Source) (toks : List Str) (acc : List Entry) (e : Entry)
    (h : e ∈ processTokens valid term generic score src toks acc) :
    e ∈ acc ∨ entryProp valid term generic score src e := by
  obtain ⟨tl, htl, hall⟩ := processTokens_suffix valid term generic score src toks acc
  rw [htl] at h
  rcases List.mem_append.mp h with h | h
  · exact Or.inl h
  · exact Or.inr (hall e h)

theorem find?_append_some {α : Type} (p : α → Bool) (l₁ l₂ : List α) (e : α)
    (h : l₁.find? p = some e) : (l₁ ++ l₂).find? p = some e := by
  rw [List.find?_append, h]
  rfl

theorem processTokens_lookup (valid : Str → Bool) (term : Terminology) (generic : Str)
    (score : Int) (src : Source) (toks : List Str) (acc : List Entry) (c : Str) (e : Entry)
    (h : lookupCode acc c = some e) :
    lookupCode (processTokens valid term generic score src toks acc) c = some e := by
  obtain ⟨tl, htl, -⟩ := processTokens_suffix valid term generic score src toks acc
  rw [htl]
  exact find?_append_some _ acc tl e h

theorem processTokens_pairwise (valid : Str → Bool) (term : Terminology) (generic : Str)
    (score : Int) (src : Source) (toks : List Str) :
    ∀ acc, acc.Pairwise (fun a b => a.code ≠ b.code) →
      (processTokens valid term generic score src toks acc).Pairwise
        (fun a b => a.code ≠ b.code) := by
  induction toks with
  | nil => intro acc h; simpa [processTokens] using h
  | cons tok toks ih =>
    intro acc hacc
    rcases insertToken_cases valid term generic score src acc tok with h | ⟨e, h, _, hnew⟩
    · simpa [processTokens, List.foldl_cons, h] using ih acc hacc
    · have : (acc ++ [e]).Pairwise (fun a b => a.code ≠ b.code) := by
        rw [List.pairwise_append]
        refine ⟨hacc, by simp, ?_⟩
        intro a ha b hb
        rcases List.mem_singleton.mp hb with rfl
        exact (hasCode_eq_false_iff acc b.code).mp hnew a ha
      simpa [processTokens, List.foldl_cons, h] using ih (acc ++ [e]) this

/-! ### Per-match lemmas: each loop iteration only appends to each
accumulator, and every appended entry satisfies its category's
`entryProp`. -/

theorem stepMatch_icd10 (term : Terminology) (excl : List Str) (st : CodeState) (m : PMatch) :
    ∃ tl, (stepMatch term excl st m).icd10 = st.icd10 ++ tl ∧
      ∀ e ∈ tl, entryProp validICD10 term icdGeneric m.score
        (srcOf (!(metaStr m.meta icd10Keys).isEmpty)) e := by
  unfold stepMatch
  by_cases hex : excludedMatch excl (chunkText m) = true
  · exact ⟨[], by simp [hex], by simp⟩
  · simp only [hex, Bool.false_eq_true, if_false]
    by_cases hs : (icdStrOf m.meta (chunkText m)).isEmpty = true
    · exact ⟨[], by simp [hs], by simp⟩
    · obtain ⟨tl, htl, hall⟩ := processTokens_suffix validICD10 term icdGeneric m.score
        (srcOf (!(metaStr m.meta icd10Keys).isEmpty))
        (splitTokens (icdStrOf m.meta (chunkText m))) st.icd10
      exact ⟨tl, by simp [hs, htl], hall⟩

theorem stepMatch_cpt (term : Terminology) (excl : List Str) (st : CodeState) (m : PMatch) :
    ∃ tl, (stepMatch term excl st m).cpt = st.cpt ++ tl ∧
      ∀ e ∈ tl, entryProp validCPT term cptGeneric m.score
        (srcOf (!(metaStr m.meta cptKeys).isEmpty)) e := by
  unfold stepMatch
  by_cases hex : excludedMatch excl (chunkText m) = true
  · exact ⟨[], by simp [hex], by simp⟩
  · simp only [hex, Bool.false_eq_true, if_false]
    by_cases hs : (cptStrOf m.meta (chunkText m)).isEmpty = true
    · exact ⟨[], by simp [hs], by simp⟩
    · obtain ⟨tl, htl, hall⟩ := processTokens_suffix validCPT term cptGeneric m.score
        (srcOf (!(metaStr m.meta cptKeys).isEmpty))
        (splitTokens (cptStrOf m.meta (chunkText m))) st.cpt
      exact ⟨tl, by simp [hs, htl], hall⟩

theorem stepMatch_hcpcs (term : Terminology) (excl : List Str) (st : CodeState) (m : PMatch) :
    ∃ tl, (stepMatch term excl st m).hcpcs = st.hcpcs ++ tl ∧
      ∀ e ∈ tl, entryProp validHCPCS term hcpcsGeneric m.score Source.metadata e := by
  unfold stepMatch
  by_cases hex : excludedMatch excl (chunkText m) = true
  · exact ⟨[], by simp [hex], by simp⟩
  · simp only [hex, Bool.false_eq_true, if_false]
    by_cases hs : (hcpcsStrOf m.meta).isEmpty = true
    · exact ⟨[], by simp [hs], by simp⟩
    · have hsrc : srcOf (!(metaStr m.meta hcpcsKeys).isEmpty) = Source.metadata := by
        have : (metaStr m.meta hcpcsKeys).isEmpty = false := by
          simpa [hcpcsStrOf] using hs
        simp [srcOf, this]
      obtain ⟨tl, htl, hall⟩ := processTokens_suffix validHCPCS term hcpcsGeneric m.score
        (srcOf (!(metaStr m.meta hcpcsKeys).isEmpty))
        (splitTokens (hcpcsStrOf m.meta)) st.hcpcs
      refine ⟨tl, by simp [hs, htl], ?_⟩
      intro e he
      have := hall e he
      rwa [hsrc] at this

/-! ### Fold-level invariant: running the loop over any match list only
appends, and appended entries satisfy any per-category property `Q`
guaranteed by each single step. -/

theorem foldl_step_suffix (term : Terminology) (excl : List Str)
    (sel : CodeState → List Entry) (Q : Entry → Prop)
    (hstep : ∀ st m, ∃ tl, sel (stepMatch term excl st m) = sel st ++ tl ∧ ∀ e ∈ tl, Q e)
    (ms : List PMatch) :
    ∀ st, ∃ tl, sel (ms.foldl (stepMatch term excl) st) = sel st ++ tl ∧ ∀ e ∈ tl, Q e := by
  induction ms with
  | nil => exact fun st => ⟨[], by simp, by simp⟩
  | cons m ms ih =>
    intro st
    obtain ⟨tl₁, h₁, hall₁⟩ := hstep st m
    obtain ⟨tl₂, h₂, hall₂⟩ := ih (stepMatch term excl st m)
    refine ⟨tl₁ ++ tl₂, ?_, ?_⟩
    · rw [List.foldl_cons, h₂, h₁, List.append_assoc]
    · intro e he
      rcases List.mem_append.mp he with he | he
      · exact hall₁ e he
      · exact hall₂ e he

theorem extractState_icd10_mem (term : Terminology) (excl : List Str) (ms : List PMatch)
    (e : Entry) (h : e ∈ (extractState term excl ms).icd10) :
    e.description = descFor term icdGeneric e.code ∧ validICD10 e.code = true ∧
      e.code ≠ [] ∧ trimStr e.code = e.code := by
  obtain ⟨tl, htl, hall⟩ := foldl_step_suffix term excl CodeState.icd10
    (fun e => e.description = descFor term icdGeneric e.code ∧ validICD10 e.code = true ∧
      e.code ≠ [] ∧ trimStr e.code = e.code)
    (fun st m => by
      obtain ⟨tl, htl, hall⟩ := stepMatch_icd10 term excl st m
      exact ⟨tl, htl, fun e he => ⟨(hall e he).2.2.1, (hall e he).2.2.2.1,
        (hall e he).2.2.2.2.1, (hall e he).2.2.2.2.2⟩⟩) ms ⟨[], [], []⟩
  rw [extractState] at h
  rw [htl] at h
  rcases List.mem_append.mp h with h | h
  · simp at h
  · exact hall e h

theorem extractState_cpt_mem (term : Terminology) (excl : List Str) (ms : List PMatch)
    (e : Entry) (h : e ∈ (extractState term excl ms).cpt) :
    e.description = descFor term cptGeneric e.code ∧ validCPT e.code = true ∧
      e.code ≠ [] ∧ trimStr e.code = e.code := by
  obtain ⟨tl, htl, hall⟩ := foldl_step_suffix term excl CodeState.cpt
    (fun e => e.description = descFor term cptGeneric e.code ∧ validCPT e.code = true ∧
      e.code ≠ [] ∧ trimStr e.code = e.code)
    (fun st m => by
      obtain ⟨tl, htl, hall⟩ := stepMatch_cpt term excl st m
      exact ⟨tl, htl, fun e he => ⟨(hall e he).2.2.1, (hall e he).2.2.2.1,
        (hall e he).2.2.2.2.1, (hall e he).2.2.2.2.2⟩⟩) ms ⟨[], [], []⟩
  rw [extractState] at h
  rw [htl] at h
  rcases List.mem_append.mp h with h | h
  · simp at h
  · exact hall e h

theorem extractState_hcpcs_mem (term : Terminology) (excl : List Str) (ms : List PMatch)
    (e : Entry) (h : e ∈ (extractState term excl ms).hcpcs) :
    e.description = descFor term hcpcsGeneric e.code ∧ e.code ≠ [] ∧
      trimStr e.code = e.code ∧ e.source = Source.metadata := by
  obtain ⟨tl, htl, hall⟩ := foldl_step_suffix term excl CodeState.hcpcs
    (fun e => e.description = descFor term hcpcsGeneric e.code ∧ e.code ≠ [] ∧
      trimStr e.code = e.code ∧ e.source = Source.metadata)
    (fun st m => by
      obtain ⟨tl, htl, hall⟩ := stepMatch_hcpcs term excl st m
      exact ⟨tl, htl, fun e he => ⟨(hall e he).2.2.1, (hall e he).2.2.2.2.1,
        (hall e he).2.2.2.2.2, (hall e he).1⟩⟩) ms ⟨[], [], []⟩
  rw [extractState] at h
  rw [htl] at h
  rcases List.mem_append.mp h with h | h
  · simp at h
  · exact hall e h

/-! ### Sorting lemmas: `sortScoreDesc` is a stable sort by score
descending. -/

theorem insertDesc_perm (a : Entry) (l : List Entry) :
    (insertDesc a l).Perm (a :: l) := by
  induction l with
  | nil => simp [insertDesc]
  | cons b t ih =>
    by_cases h : a.score < b.score
    · simp only [insertDesc, if_pos h]
      exact (ih.cons b).trans (List.Perm.swap a b t)
    · simp [insertDesc, if_neg h]

theorem sortScoreDesc_perm (l : List Entry) : (sortScoreDesc l).Perm l := by
  induction l with
  | nil => simp [sortScoreDesc]
  | cons a t ih =>
    exact (insertDesc_perm a (sortScoreDesc t)).trans (ih.cons a)

theorem insertDesc_mem (x a : Entry) (l : List Entry) :
    x ∈ insertDesc a l ↔ x = a ∨ x ∈ l := by
  rw [(insertDesc_perm a l).mem_iff]
  simp

theorem insertDesc_pairwise (a : Entry) (l : List Entry)
    (h : l.Pairwise (fun x y => y.score ≤ x.score)) :
    (insertDesc a l).Pairwise (fun x y => y.score ≤ x.score) := by
  induction l with
  | nil => simp [insertDesc]
  | cons b t ih =>
    rcases List.pairwise_cons.mp h with ⟨hb, ht⟩
    by_cases hab : a.score < b.score
    · simp only [insertDesc, if_pos hab]
      refine List.pairwise_cons.mpr ⟨?_, ih ht⟩
      intro x hx
      rcases (insertDesc_mem x a t).mp hx with rfl | hx
      · exact le_of_lt hab
      · exact hb x hx
    · simp only [insertDesc, if_neg hab]
      push_neg at hab
      refine List.pairwise_cons.mpr ⟨?_, List.pairwise_cons.mpr ⟨hb, ht⟩⟩
      intro x hx
      rcases List.mem_cons.mp hx with rfl | hx
      · exact hab
      · exact le_trans (hb x hx) hab

theorem sortScoreDesc_pairwise (l : List Entry) :
    (sortScoreDesc l).Pairwise (fun x y => y.score ≤ x.score) := by
  induction l with
  | nil => simp [sortScoreDesc]
  | cons a t ih => exact insertDesc_pairwise a (sortScoreDesc t) ih

theorem insertDesc_filter_score (s : Int) (a : Entry) (l : List Entry) :
    (insertDesc a l).filter (fun e => decide (e.score = s)) =
      if a.score = s then a :: l.filter (fun e => decide (e.score = s))
      else l.filter (fun e => decide (e.score = s)) := by
  induction l with
  | nil =>
    by_cases h : a.score = s <;> simp [insertDesc, List.filter, h]
  | cons b t ih =>
    by_cases hab : a.score < b.score
    · simp only [insertDesc, if_pos hab]
      by_cases hb : b.score = s
      · have ha : ¬a.score = s := by omega
        simp [List.filter_cons, hb, ha, ih]
      · simp [List.filter_cons, hb, ih]
    · simp only [insertDesc, if_neg hab]
      by_cases ha : a.score = s <;> simp [List.filter_cons, ha]

theorem sortScoreDesc_filter_score (s : Int) (l : List Entry) :
    (sortScoreDesc l).filter (fun e => decide (e.score = s)) =
      l.filter (fun e => decide (e.score = s)) := by
  induction l with
  | nil => rfl
  | cons a t ih =>
    by_cases ha : a.score = s <;>
      simp [sortScoreDesc, insertDesc_filter_score, ha, List.filter_cons, ih]

theorem rankedProp_holds (input : List Entry) (n : Nat) :
    rankedProp input n ((sortScoreDesc input).take n) := by
  refine ⟨rfl, sortScoreDesc_perm input, ?_, fun s => sortScoreDesc_filter_score s input,
    ?_, ?_⟩
  · exact List.Pairwise.sublist (List.take_sublist n _) (sortScoreDesc_pairwise input)
  · simp [List.length_take_le]
  · intro h
    subst h
    simp [sortScoreDesc]

/-! ### Dedup invariant and lookup persistence -/

theorem stepMatch_pairwise (term : Terminology) (excl : List Str) (st : CodeState) (m : PMatch) :
    (st.icd10.Pairwise (fun a b => a.code ≠ b.code) →
      (stepMatch term excl st m).icd10.Pairwise (fun a b => a.code ≠ b.code)) ∧
    (st.cpt.Pairwise (fun a b => a.code ≠ b.code) →
      (stepMatch term excl st m).cpt.Pairwise (fun a b => a.code ≠ b.code)) ∧
    (st.hcpcs.Pairwise (fun a b => a.code ≠ b.code) →
      (stepMatch term excl st m).hcpcs.Pairwise (fun a b => a.code ≠ b.code)) := by
  unfold stepMatch
  by_cases hex : excludedMatch excl (chunkText m) = true
  · simp [hex]
  · simp only [hex, Bool.false_eq_true, if_false]
    refine ⟨?_, ?_, ?_⟩
    · by_cases hs : (icdStrOf m.meta (chunkText m)).isEmpty = true
      · simp [hs]
      · intro h
        simpa [hs] using processTokens_pairwise _ _ _ _ _ _ _ h
    · by_cases hs : (cptStrOf m.meta (chunkText m)).isEmpty = true
      · simp [hs]
      · intro h
        simpa [hs] using processTokens_pairwise _ _ _ _ _ _ _ h
    · by_cases hs : (hcpcsStrOf m.meta).isEmpty = true
      · simp [hs]
      · intro h
        simpa [hs] using processTokens_pairwise _ _ _ _ _ _ _ h

theorem extractState_pairwise (term : Terminology) (excl : List Str) (ms : List PMatch) :
    (extractState term excl ms).icd10.Pairwise (fun a b => a.code ≠ b.code) ∧
    (extractState term excl ms).cpt.Pairwise (fun a b => a.code ≠ b.code) ∧
    (extractState term excl ms).hcpcs.Pairwise (fun a b => a.code ≠ b.code) := by
  suffices h : ∀ st : CodeState,
      st.icd10.Pairwise (fun a b => a.code ≠ b.code) →
      st.cpt.Pairwise (fun a b => a.code ≠ b.code) →
      st.hcpcs.Pairwise (fun a b => a.code ≠ b.code) →
      (ms.foldl (stepMatch term excl) st).icd10.Pairwise (fun a b => a.code ≠ b.code) ∧
      (ms.foldl (stepMatch term excl) st).cpt.Pairwise (fun a b => a.code ≠ b.code) ∧
      (ms.foldl (stepMatch term excl) st).hcpcs.Pairwise (fun a b => a.code ≠ b.code) by
    exact h ⟨[], [], []⟩ (by simp) (by simp) (by simp)
  induction ms with
  | nil => intro st h1 h2 h3; exact ⟨h1, h2, h3⟩
  | cons m ms ih =>
    intro st h1 h2 h3
    obtain ⟨p1, p2, p3⟩ := stepMatch_pairwise term excl st m
    exact ih (stepMatch term excl st m) (p1 h1) (p2 h2) (p3 h3)

theorem extractState_append_suffix (term : Terminology) (excl : List Str)
    (ms1 ms2 : List PMatch) :
    (∃ tl, (extractState term excl (ms1 ++ ms2)).icd10 =
      (extractState term excl ms1).icd10 ++ tl) ∧
    (∃ tl, (extractState term excl (ms1 ++ ms2)).cpt =
      (extractState term excl ms1).cpt ++ tl) ∧
    (∃ tl, (extractState term excl (ms1 ++ ms2)).hcpcs =
      (extractState term excl ms1).hcpcs ++ tl) := by
  have hfold : extractState term excl (ms1 ++ ms2) =
      ms2.foldl (stepMatch term excl) (extractState term excl ms1) := by
    simp [extractState, List.foldl_append]
  refine ⟨?_, ?_, ?_⟩
  · obtain ⟨tl, htl, -⟩ := foldl_step_suffix term excl CodeState.icd10 (fun _ => True)
      (fun st m => by
        obtain ⟨tl, htl, -⟩ := stepMatch_icd10 term excl st m
        exact ⟨tl, htl, fun _ _ => trivial⟩) ms2 (extractState term excl ms1)
    exact ⟨tl, by rw [hfold, htl]⟩
  · obtain ⟨tl, htl, -⟩ := foldl_step_suffix term excl CodeState.cpt (fun _ => True)
      (fun st m => by
        obtain ⟨tl, htl, -⟩ := stepMatch_cpt term excl st m
        exact ⟨tl, htl, fun _ _ => trivial⟩) ms2 (extractState term excl ms1)
    exact ⟨tl, by rw [hfold, htl]⟩
  · obtain ⟨tl, htl, -⟩ := foldl_step_suffix term excl CodeState.hcpcs (fun _ => True)
      (fun st m => by
        obtain ⟨tl, htl, -⟩ := stepMatch_hcpcs term excl st m
        exact ⟨tl, htl, fun _ _ => trivial⟩) ms2 (extractState term excl ms1)
    exact ⟨tl, by rw [hfold, htl]⟩

theorem lookupCode_append (acc tl : List Entry) (c : Str) (e : Entry)
    (h : lookupCode acc c = some e) : lookupCode (acc ++ tl) c = some e :=
  find?_append_some _ acc tl e h

theorem lookupCode_of_mem_pairwise (l : List Entry) (e : Entry)
    (hp : l.Pairwise (fun a b => a.code ≠ b.code)) (he : e ∈ l) :
    lookupCode l e.code = some e := by
  induction l with
  | nil => simp at he
  | cons a t ih =>
    rcases List.pairwise_cons.mp hp with ⟨ha, ht⟩
    rcases List.mem_cons.mp he with rfl | he
    · simp [lookupCode, List.find?_cons]
    · have hne : a.code ≠ e.code := ha e he
      simp only [lookupCode, List.find?_cons]
      rw [decide_eq_false hne]
      exact ih ht he

/-! ### Text-extraction pattern lemmas -/

theorem icdFrac_some (k : Nat) (cs : Str) (f : Str) (h : icdFrac k cs = some f) :
    ∃ ds, f = '.' :: ds ∧ 1 ≤ ds.length ∧ ds.length ≤ k ∧
      ds.all Char.isDigit = true := by
  induction k with
  | zero => simp [icdFrac] at h
  | succ k ih =>
    cases cs with
    | nil => simp [icdFrac] at h
    | cons c rest =>
      simp only [icdFrac] at h
      by_cases hdot : c = '.'
      · rw [if_pos hdot] at h
        subst hdot
        by_cases hc : ((rest.take (k + 1)).length = k + 1 &&
            (rest.take (k + 1)).all Char.isDigit &&
            boundaryAfter (rest.drop (k + 1))) = true
        · rw [if_pos hc] at h
          simp only [Bool.and_eq_true, decide_eq_true_eq] at hc
          refine ⟨rest.take (k + 1), by simpa using h.symm, ?_, ?_, hc.1.2⟩
          · rw [hc.1.1]; omega
          · rw [hc.1.1]
        · rw [if_neg hc] at h
          obtain ⟨ds, h1, h2, h3, h4⟩ := ih h
          exact ⟨ds, h1, h2, by omega, h4⟩
      · rw [if_neg hdot] at h
        simp at h

theorem icdMatchAt_some (cs m : Str) (h : icdMatchAt cs = some m) : IcdTok m := by
  match cs with
  | [] => simp [icdMatchAt] at h
  | [a] => simp [icdMatchAt] at h
  | [a, b] => simp [icdMatchAt] at h
  | a :: b :: c :: rest =>
    simp only [icdMatchAt] at h
    by_cases hl : (icdLead a && b.isDigit && c.isDigit) = true
    · rw [if_pos hl] at h
      simp only [Bool.and_eq_true] at hl
      cases hf : icdFrac 4 rest with
      | some frac =>
        rw [hf] at h
        obtain ⟨ds, hds, h1, h2, h3⟩ := icdFrac_some 4 rest frac hf
        refine ⟨a, b, c, frac, by simpa using h.symm, hl.1.1, hl.1.2, hl.2, ?_⟩
        exact Or.inr ⟨ds, hds, h1, h2, h3⟩
      | none =>
        rw [hf] at h
        by_cases hb : boundaryAfter rest = true
        · rw [if_pos hb] at h
          exact ⟨a, b, c, [], by simpa using h.symm, hl.1.1, hl.1.2, hl.2, Or.inl rfl⟩
        · rw [if_neg hb] at h
          simp at h
    · rw [if_neg hl] at h
      simp at h

theorem cptMatchAt_some (cs m : Str) (h : cptMatchAt cs = some m) :
    m.length = 5 ∧ m.all Char.isDigit = true := by
  unfold cptMatchAt at h
  by_cases hc : ((cs.take 5).length = 5 && (cs.take 5).all Char.isDigit &&
      boundaryAfter (cs.drop 5)) = true
  · simp only [hc, if_pos] at h
    simp only [Bool.and_eq_true, decide_eq_true_eq] at hc
    obtain rfl : cs.take 5 = m := by simpa using h
    exact ⟨hc.1.1, hc.1.2⟩
  · rw [if_neg hc] at h
    simp at h

theorem scanWith_mem (matchAt : Str → Option Str) (P : Str → Prop)
    (hm : ∀ cs m, matchAt cs = some m → P m) :
    ∀ (fuel : Nat) (cs : Str) (prev : Bool), ∀ m ∈ scanWith matchAt fuel cs prev, P m := by
  intro fuel
  induction fuel with
  | zero => intro cs prev m h; simp [scanWith] at h
  | succ fuel ih =>
    intro cs prev m h
    match cs with
    | [] => simp [scanWith] at h
    | c :: rest =>
      unfold scanWith at h
      by_cases hp : prev = true
      · rw [if_pos hp] at h
        exact ih rest (isWordChar c) m h
      · rw [if_neg hp] at h
        cases hmc : matchAt (c :: rest) with
        | some m' =>
          rw [hmc] at h
          rcases List.mem_cons.mp h with rfl | h
          · exact hm _ m hmc
          · exact ih _ true m h
        | none =>
          rw [hmc] at h
          exact ih rest (isWordChar c) m h

theorem findAllICD_shape (text : Str) : ∀ m ∈ findAllICD text, IcdTok m :=
  scanWith_mem icdMatchAt IcdTok icdMatchAt_some text.length text false

theorem findAllCPT_shape (text : Str) :
    ∀ m ∈ findAllCPT text, m.length = 5 ∧ m.all Char.isDigit = true :=
  scanWith_mem cptMatchAt _ cptMatchAt_some text.length text false

/-! ### Characterizations of the metadata key chain, the token split and
the exclusion test -/

theorem metaStr_eq_find (meta : List (Str × Str)) (keys : List Str) :
    metaStr meta keys =
      match keys.find? (fun k => !((meta.lookup k).getD []).isEmpty) with
      | some k => (meta.lookup k).getD []
      | none => [] := by
  induction keys with
  | nil => rfl
  | cons k ks ih =>
    simp only [metaStr, List.find?_cons]
    cases hk : meta.lookup k with
    | none => simpa [hk] using ih
    | some v =>
      by_cases hv : v.isEmpty = true
      · simpa [hk, hv] using ih
      · simp [hk, hv]

theorem splitComma_ne_nil (s : Str) : splitComma s ≠ [] := by
  induction s with
  | nil => simp [splitComma]
  | cons c rest ih =>
    simp only [splitComma]
    by_cases h : c = ','
    · simp [h]
    · rw [if_neg h]
      cases hs : splitComma rest <;> simp

theorem splitSpec_ne_nil (s : Str) : splitSpec s ≠ [] := by
  induction s with
  | nil => simp [splitSpec]
  | cons c rest ih =>
    simp only [splitSpec]
    by_cases h : (c = ',' || c = ';') = true
    · simp [h]
    · rw [if_neg h]
      cases hs : splitSpec rest <;> simp

theorem splitTokens_eq_splitSpec (s : Str) : splitTokens s = splitSpec s := by
  induction s with
  | nil => rfl
  | cons c rest ih =>
    simp only [splitTokens, List.map_cons, splitSpec] at *
    by_cases h1 : c = ';'
    · subst h1
      simp only [if_pos rfl, splitComma, if_pos rfl]
      simp [ih]
    · by_cases h2 : c = ','
      · subst h2
        simp only [splitComma, if_neg h1, if_pos rfl]
        simp [ih]
      · have hsep : (c = ',' || c = ';') = false := by
          simp [h1, h2]
        simp only [splitComma, if_neg h1, if_neg h2, hsep, Bool.false_eq_true, if_false]
        rw [ih]

theorem excludedMatch_iff (excl : List Str) (text : Str) :
    excludedMatch excl text = true ↔
      ∃ t ∈ excl, lowerStr t <:+: lowerStr text := by
  constructor
  · intro h
    simp only [excludedMatch, Bool.and_eq_true, List.any_eq_true, decide_eq_true_eq] at h
    exact h.2
  · rintro ⟨t, ht, hinf⟩
    have hne : excl ≠ [] := by
      intro h0
      subst h0
      simp at ht
    simp only [excludedMatch, Bool.and_eq_true, List.any_eq_true, decide_eq_true_eq]
    refine ⟨?_, ⟨t, ht, hinf⟩⟩
    simp [List.isEmpty_iff, hne]

theorem excludedMatch_nil_terms (text : Str) : excludedMatch [] text = false := rfl

theorem excludedMatch_empty_text (excl : List Str) (h : ∀ t ∈ excl, t ≠ []) :
    excludedMatch excl [] = false := by
  by_contra hc
  rw [Bool.not_eq_false] at hc
  obtain ⟨t, ht, hinf⟩ := (excludedMatch_iff excl []).mp hc
  have : lowerStr t = [] := by
    simpa [lowerStr] using List.eq_nil_of_infix_nil hinf
  exact h t ht ((lowerStr_eq_nil_iff t).mp this)

theorem stepMatch_excluded (term : Terminology) (excl : List Str) (st : CodeState)
    (m : PMatch) (h : excludedMatch excl (chunkText m) = true) :
    stepMatch term excl st m = st := by
  unfold stepMatch
  simp [h]

/-! ### Strategy gating -/

theorem icdStrOf_meta (meta : List (Str × Str)) (text : Str)
    (h : metaStr meta icd10Keys ≠ []) :
    icdStrOf meta text = metaStr meta icd10Keys := by
  unfold icdStrOf
  simp [List.isEmpty_iff, h]

theorem cptStrOf_meta (meta : List (Str × Str)) (text : Str)
    (h : metaStr meta cptKeys ≠ []) :
    cptStrOf meta text = metaStr meta cptKeys := by
  unfold cptStrOf
  simp [List.isEmpty_iff, h]

theorem icdStrOf_fallback (meta : List (Str × Str)) (text : Str)
    (h1 : metaStr meta icd10Keys = []) (h2 : text ≠ []) :
    icdStrOf meta text =
      (if (findAllICD text).isEmpty then [] else joinComma (findAllICD text)) := by
  unfold icdStrOf
  simp [List.isEmpty_iff, h1, h2]

theorem cptStrOf_fallback (meta : List (Str × Str)) (text : Str)
    (h1 : metaStr meta cptKeys = []) (h2 : text ≠ []) :
    cptStrOf meta text =
      (if (findAllCPT text).isEmpty then [] else joinComma (findAllCPT text)) := by
  unfold cptStrOf
  simp [List.isEmpty_iff, h1, h2]

theorem srcOf_eq_metadata_iff (b : Bool) : srcOf b = Source.metadata ↔ b = true := by
  cases b <;> simp [srcOf]

/-! ### From output entries back to the consolidated accumulators -/

theorem mem_of_mem_take_sort (l : List Entry) (n : Nat) (e : Entry)
    (h : e ∈ (sortScoreDesc l).take n) : e ∈ l :=
  (sortScoreDesc_perm l).mem_iff.mp ((List.take_sublist n _).subset h)

theorem output_icd10_mem_state (term : Terminology) (excl : List Str) (ms : List PMatch)
    (e : Entry) (h : e ∈ (retrieve_codes term excl ms).icd10) :
    e ∈ (extractState term excl ms).icd10 :=
  mem_of_mem_take_sort _ 20 e h

theorem output_cpt_mem_state (term : Terminology) (excl : List Str) (ms : List PMatch)
    (e : Entry) (h : e ∈ (retrieve_codes term excl ms).cpt) :
    e ∈ (extractState term excl ms).cpt :=
  mem_of_mem_take_sort _ 15 e h

theorem output_hcpcs_mem_state (term : Terminology) (excl : List Str) (ms : List PMatch)
    (e : Entry) (h : e ∈ (retrieve_codes term excl ms).hcpcs) :
    e ∈ (extractState term excl ms).hcpcs :=
  mem_of_mem_take_sort _ 10 e h

theorem stepMatch_hcpcs_nometa (term : Terminology) (excl : List Str) (st : CodeState)
    (m : PMatch) (h : metaStr m.meta hcpcsKeys = []) :
    (stepMatch term excl st m).hcpcs = st.hcpcs := by
  unfold stepMatch
  by_cases hex : excludedMatch excl (chunkText m) = true
  · simp [hex]
  · simp [hex, hcpcsStrOf, h]

/-! ## The claims -/

/-- Claim C1 (first-seen-wins consolidation): once a code has an entry in a
category's accumulator after some prefix of the passage list, processing
any further passages leaves that entry (its score, description and source)
unchanged, so the first passage in input order (after exclusion filtering)
that yields a code determines its final entry; and every entry of the
final output is exactly the accumulator's entry for its code. -/
theorem claim_C1 (term : Terminology) (excl : List Str) (ms1 ms2 : List PMatch)
    (c : Str) (e : Entry) :
    (lookupCode (extractState term excl ms1).icd10 c = some e →
      lookupCode (extractState term excl (ms1 ++ ms2)).icd10 c = some e) ∧
    (lookupCode (extractState term excl ms1).cpt c = some e →
      lookupCode (extractState term excl (ms1 ++ ms2)).cpt c = some e) ∧
    (lookupCode (extractState term excl ms1).hcpcs c = some e →
      lookupCode (extractState term excl (ms1 ++ ms2)).hcpcs c = some e) ∧
    (∀ e' ∈ (retrieve_codes term excl (ms1 ++ ms2)).icd10,
      lookupCode (extractState term excl (ms1 ++ ms2)).icd10 e'.code = some e') ∧
    (∀ e' ∈ (retrieve_codes term excl (ms1 ++ ms2)).cpt,
      lookupCode (extractState term excl (ms1 ++ ms2)).cpt e'.code = some e') ∧
    (∀ e' ∈ (retrieve_codes term excl (ms1 ++ ms2)).hcpcs,
      lookupCode (extractState term excl (ms1 ++ ms2)).hcpcs e'.code = some e') := by
  obtain ⟨⟨tl1, h1⟩, ⟨tl2, h2⟩, ⟨tl3, h3⟩⟩ := extractState_append_suffix term excl ms1 ms2
  obtain ⟨hp1, hp2, hp3⟩ := extractState_pairwise term excl (ms1 ++ ms2)
  refine ⟨?_, ?_, ?_, ?_, ?_, ?_⟩
  · intro h
    rw [h1]
    exact lookupCode_append _ _ _ _ h
  · intro h
    rw [h2]
    exact lookupCode_append _ _ _ _ h
  · intro h
    rw [h3]
    exact lookupCode_append _ _ _ _ h
  · intro e' he'
    exact lookupCode_of_mem_pairwise _ _ hp1
      (output_icd10_mem_state term excl (ms1 ++ ms2) e' he')
  · intro e' he'
    exact lookupCode_of_mem_pairwise _ _ hp2
      (output_cpt_mem_state term excl (ms1 ++ ms2) e' he')
  · intro e' he'
    exact lookupCode_of_mem_pairwise _ _ hp3
      (output_hcpcs_mem_state term excl (ms1 ++ ms2) e' he')

/-- Claim C2 (dedup invariant): in each of the three output categories,
no two entries of the final output sequence carry the same code value. -/
theorem claim_C2 (term : Terminology) (excl : List Str) (ms : List PMatch) :
    (retrieve_codes term excl ms).icd10.Pairwise (fun a b => a.code ≠ b.code) ∧
    (retrieve_codes term excl ms).cpt.Pairwise (fun a b => a.code ≠ b.code) ∧
    (retrieve_codes term excl ms).hcpcs.Pairwise (fun a b => a.code ≠ b.code) := by
  obtain ⟨hp1, hp2, hp3⟩ := extractState_pairwise term excl ms
  have hsym : ∀ {x y : Entry}, x.code ≠ y.code → y.code ≠ x.code := fun h => Ne.symm h
  refine ⟨?_, ?_, ?_⟩
  · exact List.Pairwise.sublist (List.take_sublist 20 _)
      (((sortScoreDesc_perm _).pairwise_iff hsym).mpr hp1)
  · exact List.Pairwise.sublist (List.take_sublist 15 _)
      (((sortScoreDesc_perm _).pairwise_iff hsym).mpr hp2)
  · exact List.Pairwise.sublist (List.take_sublist 10 _)
      (((sortScoreDesc_perm _).pairwise_iff hsym).mpr hp3)

/-- Claim C3 (validation): every code in the final output passed its
category's validation of the whitespace-trimmed token: an ICD-10 code has
length at least 3 and starts with a letter in `A`-`T` or `V`-`Z` followed
by two digits; a CPT code is exactly 5 characters, all digits; an HCPCS
code is non-empty. Output codes are trimmed, so a token failing its
category's validation never appears as an output code. -/
theorem claim_C3 (term : Terminology) (excl : List Str) (ms : List PMatch) :
    (∀ e ∈ (retrieve_codes term excl ms).icd10,
      3 ≤ e.code.length ∧ icdShapeOk e.code = true ∧ trimStr e.code = e.code) ∧
    (∀ e ∈ (retrieve_codes term excl ms).cpt,
      e.code.length = 5 ∧ e.code.all Char.isDigit = true ∧ trimStr e.code = e.code) ∧
    (∀ e ∈ (retrieve_codes term excl ms).hcpcs,
      e.code ≠ [] ∧ trimStr e.code = e.code) := by
  refine ⟨?_, ?_, ?_⟩
  · intro e he
    obtain ⟨-, hv, -, htrim⟩ :=
      extractState_icd10_mem term excl ms e (output_icd10_mem_state term excl ms e he)
    simp only [validICD10, Bool.and_eq_true, decide_eq_true_eq] at hv
    exact ⟨hv.1, hv.2, htrim⟩
  · intro e he
    obtain ⟨-, hv, -, htrim⟩ :=
      extractState_cpt_mem term excl ms e (output_cpt_mem_state term excl ms e he)
    simp only [validCPT, Bool.and_eq_true, decide_eq_true_eq] at hv
    exact ⟨hv.1.1, hv.2, htrim⟩
  · intro e he
    obtain ⟨-, hne, htrim, -⟩ :=
      extractState_hcpcs_mem term excl ms e (output_hcpcs_mem_state term excl ms e he)
    exact ⟨hne, htrim⟩

/-- Claim C4, amended (exclusion filter): a passage is dropped iff its text
contains some exclusion term as a case-insensitive substring; an empty
exclusion set filters nothing; a passage with absent or empty text is
never dropped PROVIDED no exclusion term is the empty string (the original
claim's unconditional "never dropped" fails, because the empty term is a
substring of the empty text — see the counterexample); an excluded
passage contributes nothing to any category. -/
theorem claim_C4 (term : Terminology) (excl : List Str) (text : Str)
    (st : CodeState) (m : PMatch) :
    (excludedMatch excl text = true ↔ ∃ t ∈ excl, lowerStr t <:+: lowerStr text) ∧
    (excl = [] → excludedMatch excl text = false) ∧
    ((∀ t ∈ excl, t ≠ []) → excludedMatch excl [] = false) ∧
    (excludedMatch excl (chunkText m) = true → stepMatch term excl st m = st) := by
  refine ⟨excludedMatch_iff excl text, ?_, excludedMatch_empty_text excl,
    stepMatch_excluded term excl st m⟩
  intro h
  subst h
  exact excludedMatch_nil_terms text

/-- Claim C4 counterexample: with exclusion set `[""]`, a passage with
absent text (treated as the empty string) IS dropped — its metadata code
`A01` reaches the output when the exclusion set is empty, but the whole
output is empty under exclusion set `[""]` — refuting the original
claim's "a passage with absent or empty text ... is therefore never
dropped". -/
theorem claim_C4_cex :
    excludedMatch [([] : Str)] (chunkText ⟨1, [(s2l "icd10_codes", s2l "A01")]⟩) = true ∧
    retrieve_codes [] [([] : Str)] [⟨1, [(s2l "icd10_codes", s2l "A01")]⟩] = ⟨[], [], []⟩ ∧
    (retrieve_codes [] [] [⟨1, [(s2l "icd10_codes", s2l "A01")]⟩]).icd10 ≠ [] := by
  refine ⟨by decide, by decide, by decide⟩

/-- Claim C5 (text-extraction fallback): for each of ICD-10 and CPT, the
category string is the metadata value whenever that is non-empty (so the
pattern runs only when the metadata strategy yields nothing), and
otherwise, for non-empty text, is the comma-join of the pattern's matches;
HCPCS has no text fallback at all; every ICD-10 match is a letter in
`A`-`T` or `V`-`Z` plus two digits with an optional dot and 1-4 digits;
every CPT match is exactly five digits; and entries produced without
metadata carry source TEXT_EXTRACTION (HCPCS entries always carry
METADATA). -/
theorem claim_C5 (meta : List (Str × Str)) (text : Str) (term : Terminology)
    (excl : List Str) (st : CodeState) (m : PMatch) :
    (metaStr meta icd10Keys ≠ [] → icdStrOf meta text = metaStr meta icd10Keys) ∧
    (metaStr meta cptKeys ≠ [] → cptStrOf meta text = metaStr meta cptKeys) ∧
    (metaStr meta icd10Keys = [] → text ≠ [] →
      icdStrOf meta text =
        (if (findAllICD text).isEmpty then [] else joinComma (findAllICD text))) ∧
    (metaStr meta cptKeys = [] → text ≠ [] →
      cptStrOf meta text =
        (if (findAllCPT text).isEmpty then [] else joinComma (findAllCPT text))) ∧
    (hcpcsStrOf meta = metaStr meta hcpcsKeys) ∧
    (∀ tok ∈ findAllICD text, IcdTok tok) ∧
    (∀ tok ∈ findAllCPT text, tok.length = 5 ∧ tok.all Char.isDigit = true) ∧
    (metaStr m.meta icd10Keys = [] → ∀ e ∈ (stepMatch term excl st m).icd10,
      e ∈ st.icd10 ∨ e.source = Source.text_extraction) ∧
    (metaStr m.meta cptKeys = [] → ∀ e ∈ (stepMatch term excl st m).cpt,
      e ∈ st.cpt ∨ e.source = Source.text_extraction) ∧
    (∀ e ∈ (stepMatch term excl st m).hcpcs,
      e ∈ st.hcpcs ∨ e.source = Source.metadata) := by
  refine ⟨icdStrOf_meta meta text, cptStrOf_meta meta text,
    icdStrOf_fallback meta text, cptStrOf_fallback meta text, rfl,
    findAllICD_shape text, findAllCPT_shape text, ?_, ?_, ?_⟩
  · intro h e he
    obtain ⟨tl, htl, hall⟩ := stepMatch_icd10 term excl st m
    rw [htl] at he
    rcases List.mem_append.mp he with he | he
    · exact Or.inl he
    · right
      have := (hall e he).1
      rw [this, h]
      simp [srcOf]
  · intro h e he
    obtain ⟨tl, htl, hall⟩ := stepMatch_cpt term excl st m
    rw [htl] at he
    rcases List.mem_append.mp he with he | he
    · exact Or.inl he
    · right
      have := (hall e he).1
      rw [this, h]
      simp [srcOf]
  · intro e he
    obtain ⟨tl, htl, hall⟩ := stepMatch_hcpcs term excl st m
    rw [htl] at he
    rcases List.mem_append.mp he with he | he
    · exact Or.inl he
    · exact Or.inr (hall e he).1

/-- Claim C6 (metadata key priority): the metadata value for a category is
that of the first key of the category's ordered key list that is present
with a non-empty value; the category string is split into raw tokens on
both `,` and `;`; and every entry produced while the metadata value is
non-empty carries source METADATA. -/
theorem claim_C6 (meta : List (Str × Str)) (keys : List Str) (s : Str)
    (term : Terminology) (excl : List Str) (st : CodeState) (m : PMatch) :
    (metaStr meta keys =
      match keys.find? (fun k => !((meta.lookup k).getD []).isEmpty) with
      | some k => (meta.lookup k).getD []
      | none => []) ∧
    (splitTokens s = splitSpec s) ∧
    (metaStr m.meta icd10Keys ≠ [] → ∀ e ∈ (stepMatch term excl st m).icd10,
      e ∈ st.icd10 ∨ e.source = Source.metadata) ∧
    (metaStr m.meta cptKeys ≠ [] → ∀ e ∈ (stepMatch term excl st m).cpt,
      e ∈ st.cpt ∨ e.source = Source.metadata) ∧
    (∀ e ∈ (stepMatch term excl st m).hcpcs,
      e ∈ st.hcpcs ∨ e.source = Source.metadata) := by
  refine ⟨metaStr_eq_find meta keys, splitTokens_eq_splitSpec s, ?_, ?_, ?_⟩
  · intro h e he
    obtain ⟨tl, htl, hall⟩ := stepMatch_icd10 term excl st m
    rw [htl] at he
    rcases List.mem_append.mp he with he | he
    · exact Or.inl he
    · right
      have hs := (hall e he).1
      rw [hs, srcOf_eq_metadata_iff]
      simp [List.isEmpty_iff, h]
  · intro h e he
    obtain ⟨tl, htl, hall⟩ := stepMatch_cpt term excl st m
    rw [htl] at he
    rcases List.mem_append.mp he with he | he
    · exact Or.inl he
    · right
      have hs := (hall e he).1
      rw [hs, srcOf_eq_metadata_iff]
      simp [List.isEmpty_iff, h]
  · intro e he
    obtain ⟨tl, htl, hall⟩ := stepMatch_hcpcs term excl st m
    rw [htl] at he
    rcases List.mem_append.mp he with he | he
    · exact Or.inl he
    · exact Or.inr (hall e he).1

/-- Claim C7 (ranking and truncation): each output category is the stable
score-descending sort of its insertion-ordered accumulator truncated to
20 (ICD-10) / 15 (CPT) / 10 (HCPCS) entries: the sort is a permutation,
the output is score-descending, ties keep first-seen insertion order
(filtering by any score commutes with the sort), at most the limit many
entries survive, and an empty category yields the empty sequence. -/
theorem claim_C7 (term : Terminology) (excl : List Str) (ms : List PMatch) :
    rankedProp (extractState term excl ms).icd10 20 (retrieve_codes term excl ms).icd10 ∧
    rankedProp (extractState term excl ms).cpt 15 (retrieve_codes term excl ms).cpt ∧
    rankedProp (extractState term excl ms).hcpcs 10 (retrieve_codes term excl ms).hcpcs :=
  ⟨rankedProp_holds _ 20, rankedProp_holds _ 15, rankedProp_holds _ 10⟩

/-- Claim C8 (description enrichment): every output entry's description is
the first element of its code's `positive_terms` when the code is in the
terminology table with a non-empty `positive_terms`, and otherwise the
generic `"<CATEGORY> code <code>"` string for its category. -/
theorem claim_C8 (term : Terminology) (excl : List Str) (ms : List PMatch) :
    (∀ e ∈ (retrieve_codes term excl ms).icd10,
      e.description =
        match term.lookup e.code with
        | some (t :: _) => t
        | some [] => icdGeneric ++ e.code
        | none => icdGeneric ++ e.code) ∧
    (∀ e ∈ (retrieve_codes term excl ms).cpt,
      e.description =
        match term.lookup e.code with
        | some (t :: _) => t
        | some [] => cptGeneric ++ e.code
        | none => cptGeneric ++ e.code) ∧
    (∀ e ∈ (retrieve_codes term excl ms).hcpcs,
      e.description =
        match term.lookup e.code with
        | some (t :: _) => t
        | some [] => hcpcsGeneric ++ e.code
        | none => hcpcsGeneric ++ e.code) := by
  refine ⟨?_, ?_, ?_⟩
  · intro e he
    exact (extractState_icd10_mem term excl ms e
      (output_icd10_mem_state term excl ms e he)).1
  · intro e he
    exact (extractState_cpt_mem term excl ms e
      (output_cpt_mem_state term excl ms e he)).1
  · intro e he
    exact (extractState_hcpcs_mem term excl ms e
      (output_hcpcs_mem_state term excl ms e he)).1

/-- Claim C9 (provenance invariant): an entry freshly added by processing a
passage has source METADATA iff that passage's metadata key chain for the
entry's category produced a non-empty value (provenance is per category
per passage), and entries already present are never touched, so an output
entry's source records the metadata/text provenance of the first passage
that yielded its code. -/
theorem claim_C9 (term : Terminology) (excl : List Str) (st : CodeState) (m : PMatch) :
    (∀ e ∈ (stepMatch term excl st m).icd10, e ∉ st.icd10 →
      (e.source = Source.metadata ↔ metaStr m.meta icd10Keys ≠ [])) ∧
    (∀ e ∈ (stepMatch term excl st m).cpt, e ∉ st.cpt →
      (e.source = Source.metadata ↔ metaStr m.meta cptKeys ≠ [])) ∧
    (∀ e ∈ (stepMatch term excl st m).hcpcs, e ∉ st.hcpcs →
      (e.source = Source.metadata ↔ metaStr m.meta hcpcsKeys ≠ [])) ∧
    (∀ c e', lookupCode st.icd10 c = some e' →
      lookupCode (stepMatch term excl st m).icd10 c = some e') ∧
    (∀ c e', lookupCode st.cpt c = some e' →
      lookupCode (stepMatch term excl st m).cpt c = some e') ∧
    (∀ c e', lookupCode st.hcpcs c = some e' →
      lookupCode (stepMatch term excl st m).hcpcs c = some e') := by
  obtain ⟨tl1, h1, hall1⟩ := stepMatch_icd10 term excl st m
  obtain ⟨tl2, h2, hall2⟩ := stepMatch_cpt term excl st m
  obtain ⟨tl3, h3, hall3⟩ := stepMatch_hcpcs term excl st m
  refine ⟨?_, ?_, ?_, ?_, ?_, ?_⟩
  · intro e he hnotin
    rw [h1] at he
    rcases List.mem_append.mp he with he | he
    · exact absurd he hnotin
    · have hs := (hall1 e he).1
      rw [hs, srcOf_eq_metadata_iff]
      simp [List.isEmpty_iff]
  · intro e he hnotin
    rw [h2] at he
    rcases List.mem_append.mp he with he | he
    · exact absurd he hnotin
    · have hs := (hall2 e he).1
      rw [hs, srcOf_eq_metadata_iff]
      simp [List.isEmpty_iff]
  · intro e he hnotin
    by_cases hmeta : metaStr m.meta hcpcsKeys = []
    · rw [stepMatch_hcpcs_nometa term excl st m hmeta] at he
      exact absurd he hnotin
    · rw [h3] at he
      rcases List.mem_append.mp he with he | he
      · exact absurd he hnotin
      · exact ⟨fun _ => hmeta, fun _ => (hall3 e he).1⟩
  · intro c e' h
    rw [h1]
    exact lookupCode_append _ _ _ _ h
  · intro c e' h
    rw [h2]
    exact lookupCode_append _ _ _ _ h
  · intro c e' h
    rw [h3]
    exact lookupCode_append _ _ _ _ h

/-- Claim C10 (HCPCS provenance): every entry of the HCPCS output sequence
has source METADATA; TEXT_EXTRACTION is unreachable for HCPCS because the
HCPCS category string can only be non-empty via the metadata keys. -/
theorem claim_C10 (term : Terminology) (excl : List Str) (ms : List PMatch) :
    ∀ e ∈ (retrieve_codes term excl ms).hcpcs, e.source = Source.metadata :=
  fun e he => (extractState_hcpcs_mem term excl ms e
    (output_hcpcs_mem_state term excl ms e he)).2.2.2

/-! ## Concrete witnesses (the spec's scenarios A, B, D on small inputs) -/

/-- A passage carrying ICD-10 codes in metadata (spec scenario B). -/
def wmMeta : PMatch := ⟨8, [(textKey, s2l "note"), (s2l "icd10_codes", s2l "F41.1, F41.9")]⟩

/-- A later, higher-scored passage yielding `F41.1` from text (scenario B). -/
def wmText : PMatch := ⟨9, [(textKey, s2l "diagnosed with F41.1")]⟩

/-- A passage carrying an HCPCS code in metadata. -/
def wmHcpcs : PMatch := ⟨3, [(s2l "hcpcs_codes", s2l "J1200")]⟩

/-- A passage whose text contains an exclusion term (case-insensitively). -/
def wmDenied : PMatch := ⟨5, [(textKey, s2l "claim DENIED today"), (s2l "icd10_codes", s2l "A01")]⟩

/-- The consolidated entry for `F41.1` from `wmMeta` with an empty
terminology table. -/
def weF411 : Entry := ⟨s2l "F41.1", s2l "ICD-10 code F41.1", 8, Source.metadata⟩

/-- The consolidated entry for `J1200` from `wmHcpcs`. -/
def weJ1200 : Entry := ⟨s2l "J1200", s2l "HCPCS code J1200", 3, Source.metadata⟩

/-- A one-entry terminology table (spec scenario D). -/
def wTerm : Terminology := [(s2l "F41.1", [s2l "Generalized anxiety disorder"])]

/-- The consolidated entry for `F41.1` enriched from `wTerm`. -/
def weGAD : Entry := ⟨s2l "F41.1", s2l "Generalized anxiety disorder", 8, Source.metadata⟩

/-- Witness for C1: the metadata passage wins over the later, higher-scored
text passage for `F41.1` (spec scenario B). -/
theorem claim_C1_wit :
    lookupCode (extractState [] [] ([wmMeta] ++ [wmText])).icd10 (s2l "F41.1") =
      some weF411 :=
  (claim_C1 [] [] [wmMeta] [wmText] (s2l "F41.1") weF411).1 (by decide)

/-- Witness for C2 at a concrete input. -/
theorem claim_C2_wit :
    (retrieve_codes [] [] [wmMeta]).icd10.Pairwise (fun a b => a.code ≠ b.code) :=
  (claim_C2 [] [] [wmMeta]).1

/-- Witness for C3 at a concrete output entry. -/
theorem claim_C3_wit :
    3 ≤ weF411.code.length ∧ icdShapeOk weF411.code = true ∧
      trimStr weF411.code = weF411.code :=
  (claim_C3 [] [] [wmMeta]).1 weF411 (by decide)

/-- Witness for C4 (amended): a non-empty exclusion term does not drop an
empty-text passage, and an excluded passage contributes nothing. -/
theorem claim_C4_wit :
    excludedMatch [s2l "x"] [] = false ∧
      stepMatch [] [s2l "denied"] ⟨[], [], []⟩ wmDenied = ⟨[], [], []⟩ :=
  ⟨(claim_C4 [] [s2l "x"] [] ⟨[], [], []⟩ wmDenied).2.2.1 (by decide),
   (claim_C4 [] [s2l "denied"] [] ⟨[], [], []⟩ wmDenied).2.2.2 (by decide)⟩

/-- Witness for C5: non-empty metadata suppresses the fallback, and the
extracted token `F41.1` has the pattern shape (spec scenario A). -/
theorem claim_C5_wit :
    icdStrOf [(s2l "icd10", s2l "A01")] (s2l "diagnosed with F41.1") =
      metaStr [(s2l "icd10", s2l "A01")] icd10Keys ∧ IcdTok (s2l "F41.1") := by
  obtain ⟨h1, -, -, -, -, h6, -, -, -, -⟩ :=
    claim_C5 [(s2l "icd10", s2l "A01")] (s2l "diagnosed with F41.1") [] [] ⟨[], [], []⟩ wmText
  exact ⟨h1 (by decide), h6 (s2l "F41.1") (by decide)⟩

/-- Witness for C6: token split on both separators, and METADATA provenance
of a concrete metadata-sourced entry. -/
theorem claim_C6_wit :
    splitTokens (s2l "a;b,c") = splitSpec (s2l "a;b,c") ∧
      (weF411 ∈ (⟨[], [], []⟩ : CodeState).icd10 ∨ weF411.source = Source.metadata) := by
  obtain ⟨-, h2, h3, -, -⟩ :=
    claim_C6 wmMeta.meta icd10Keys (s2l "a;b,c") [] [] ⟨[], [], []⟩ wmMeta
  exact ⟨h2, h3 (by decide) weF411 (by decide)⟩

/-- Witness for C7 at a concrete (empty) input: the empty category yields
the empty sequence. -/
theorem claim_C7_wit : (retrieve_codes [] [] []).icd10 = [] :=
  ((claim_C7 [] [] []).1).2.2.2.2.2 (by decide)

/-- Witness for C8: terminology enrichment at a concrete entry (spec
scenario D). -/
theorem claim_C8_wit :
    weGAD.description =
      match wTerm.lookup weGAD.code with
      | some (t :: _) => t
      | some [] => icdGeneric ++ weGAD.code
      | none => icdGeneric ++ weGAD.code :=
  (claim_C8 wTerm [] [wmMeta]).1 weGAD (by decide)

/-- Witness for C9 at a concrete freshly-inserted entry. -/
theorem claim_C9_wit :
    weF411.source = Source.metadata ↔ metaStr wmMeta.meta icd10Keys ≠ [] :=
  (claim_C9 [] [] ⟨[], [], []⟩ wmMeta).1 weF411 (by decide) (by decide)

/-- Witness for C10 at a concrete HCPCS output entry. -/
theorem claim_C10_wit : weJ1200.source = Source.metadata :=
  claim_C10 [] [] [wmHcpcs] weJ1200 (by decide)

end MedicalRag
